import Mathlib

set_option maxRecDepth 4000

/-!
# Verification of the DataOps payroll ETL core (src/etl.py)

Shallow embedding of the transform + analyse pipeline of `etl.py`:
column-alias resolution (`_find_col`), currency-string parsing
(`_to_float`), null/negative filtering (`transform`) and grouped
aggregate statistics (`analyse`).

Modelling conventions:
* Raw cells, as delivered by the CKAN JSON feed, are strings or the
  missing marker (`NaN`/`None`); a cell is `Option String` with `none`
  the missing marker.
* float64 values are modelled exactly: finite values as `ℚ`, plus the
  infinities.  `NaN` produced by parsing is identified with the missing
  marker, exactly as in the code where both are `np.nan` and both are
  removed by `dropna`.
* Python `str.lower` is modelled on ASCII letters (every alias candidate
  in the source is ASCII).
* Python string comparison (used by `groupby(sort=True)`) is code-point
  lexicographic; it is embedded as the structural `lexLt` below.
-/

namespace Etl

/-- A raw cell: `none` is the missing marker (`NaN`/`None`), `some s` a
textual value. -/
abbrev Cell := Option String

/-- ASCII lowercasing of one character (`str.lower` on the ASCII aliases
used by the source). -/
def lowerChar (c : Char) : Char :=
  if 'A' ≤ c ∧ c ≤ 'Z' then Char.ofNat (c.toNat + 32) else c

/-- Python whitespace for `str.strip()` / `float()` stripping. -/
def isWs (c : Char) : Bool :=
  c = ' ' ∨ c = '\t' ∨ c = '\n' ∨ c = '\r' ∨ c = '\x0b' ∨ c = '\x0c'

/-- Strip leading and trailing whitespace (Python `str.strip()`). -/
def trimChars (l : List Char) : List Char :=
  ((l.dropWhile isWs).reverse.dropWhile isWs).reverse

/-- `str.strip()` on strings. -/
def trimStr (s : String) : String := ⟨trimChars s.data⟩

/-- The normalization key of `_find_col`:
`c.lower().replace(" ", "").replace("_", "")`. -/
def normKey (s : String) : String :=
  ⟨(s.data.map lowerChar).filter (fun c => ¬ (c = ' ' ∨ c = '_'))⟩

/-- The original column name stored under `key` in the dict
`{normKey c : c for c in cols}`: a Python dict comprehension keeps the
binding of the *last* column with that key. -/
def lastMatch (cols : List String) (key : String) : Option String :=
  cols.reverse.find? (fun c => normKey c == key)

/-- `_find_col(df, candidates)`: the first candidate (in order) whose
normalized form is a key of the normalized-column dict wins; its stored
original column name is returned. -/
def findCol (cols : List String) : List String → Option String
  | [] => none
  | cand :: rest =>
    match lastMatch cols (normKey cand) with
    | some orig => some orig
    | none => findCol cols rest

/-- `cand` resolves against `cols`: some column has the same
normalization key. -/
def colMatches (cols : List String) (cand : String) : Prop :=
  ∃ c ∈ cols, normKey c = normKey cand

instance (cols : List String) (cand : String) : Decidable (colMatches cols cand) :=
  List.decidableBEx _ cols

theorem lastMatch_eq_none_iff (cols : List String) (key : String) :
    lastMatch cols key = none ↔ ∀ c ∈ cols, normKey c ≠ key := by
  unfold lastMatch
  rw [List.find?_eq_none]
  constructor
  · intro h c hc
    have := h c (List.mem_reverse.mpr hc)
    simpa using this
  · intro h c hc
    have := h c (List.mem_reverse.mp hc)
    simpa using this

theorem lastMatch_eq_some (cols : List String) (key orig : String)
    (h : lastMatch cols key = some orig) :
    orig ∈ cols ∧ normKey orig = key := by
  unfold lastMatch at h
  refine ⟨List.mem_reverse.mp (List.mem_of_find?_eq_some h), ?_⟩
  have := List.find?_some h
  simpa using this

theorem findCol_eq_none_iff (cols cands : List String) :
    findCol cols cands = none ↔ ∀ cand ∈ cands, ¬ colMatches cols cand := by
  induction cands with
  | nil => simp [findCol]
  | cons cand rest ih =>
    unfold findCol
    cases hm : lastMatch cols (normKey cand) with
    | some orig =>
      simp only [reduceCtorEq, false_iff]
      intro h
      have horig := lastMatch_eq_some cols (normKey cand) orig hm
      exact h cand (List.mem_cons_self _ _) ⟨orig, horig.1, horig.2⟩
    | none =>
      rw [ih]
      constructor
      · intro h c hc
        rcases List.mem_cons.mp hc with rfl | hc
        · rintro ⟨c0, hc0, hk⟩
          exact ((lastMatch_eq_none_iff cols (normKey c)).mp hm) c0 hc0 hk
        · exact h c hc
      · intro h c hc
        exact h c (List.mem_cons_of_mem _ hc)

theorem findCol_eq_some_spec (cols : List String) (cands : List String)
    (orig : String) (h : findCol cols cands = some orig) :
    ∃ pre cand post, cands = pre ++ cand :: post ∧
      (∀ p ∈ pre, ¬ colMatches cols p) ∧
      orig ∈ cols ∧ normKey orig = normKey cand := by
  induction cands with
  | nil => simp [findCol] at h
  | cons cand rest ih =>
    unfold findCol at h
    cases hm : lastMatch cols (normKey cand) with
    | some o =>
      rw [hm] at h
      have ho : o = orig := by simpa using h
      subst ho
      have horig := lastMatch_eq_some cols (normKey cand) o hm
      exact ⟨[], cand, rest, rfl, by simp, horig.1, horig.2⟩
    | none =>
      rw [hm] at h
      obtain ⟨pre, c0, post, heq, hpre, hor, hk⟩ := ih h
      refine ⟨cand :: pre, c0, post, by simp [heq], ?_, hor, hk⟩
      intro p hp
      rcases List.mem_cons.mp hp with rfl | hp
      · rintro ⟨c1, hc1, hk1⟩
        exact ((lastMatch_eq_none_iff cols (normKey p)).mp hm) c1 hc1 hk1
      · exact hpre p hp

/-! ## Currency parser (`_to_float`)

`float64` values are modelled exactly: `PyF` is the result of Python
`float(str)` (finite values as exact rationals, plus the infinities and
`NaN`); `ExtF` is a cleaned earnings value, where a parsed `NaN` has
been identified with the missing marker (in the code both are `np.nan`
and both are removed by `dropna`). -/

/-- Result of a successful Python `float(str)` call. -/
inductive PyF where
  | finite (q : ℚ)
  | inf
  | ninf
  | nan
deriving DecidableEq

/-- A non-`NaN` float64 value: a cleaned earnings entry. -/
inductive ExtF where
  | finite (q : ℚ)
  | inf
  | ninf
deriving DecidableEq

/-- `TOTAL_EARNINGS_CLEAN >= 0` on a non-`NaN` float64. -/
def ExtF.nonneg : ExtF → Bool
  | .finite q => decide (0 ≤ q)
  | .inf => true
  | .ninf => false

/-- Tail of a Python float `digitpart` grammar: digits with single
underscores allowed between digits. -/
def dpTail : List Char → Bool
  | [] => true
  | '_' :: rest =>
    match rest with
    | [] => false
    | c :: r2 => c.isDigit && dpTail r2
  | c :: rest => c.isDigit && dpTail rest

/-- A valid Python float `digitpart`: nonempty, starts with a digit,
underscores only between digits. -/
def dpOk : List Char → Bool
  | [] => false
  | c :: rest => c.isDigit && dpTail rest

/-- The numeric value of the digits of a digitpart (underscores
discarded). -/
def digitsVal (l : List Char) : ℕ :=
  (l.filter Char.isDigit).foldl (fun n c => 10 * n + (c.toNat - 48)) 0

/-- Number of actual digits in a digitpart. -/
def digitsLen (l : List Char) : ℕ := (l.filter Char.isDigit).length

/-- Value of the mantissa `[digitpart] ["." [digitpart]]` of a Python
float literal, `none` if malformed. -/
def parseMantissa (l : List Char) : Option ℚ :=
  let ip := l.takeWhile (fun c => c ≠ '.')
  let rest := l.dropWhile (fun c => c ≠ '.')
  match rest with
  | [] => if dpOk ip then some (mkRat (digitsVal ip) 1) else none
  | _ :: fp =>
    if (ip = [] ∨ dpOk ip) ∧ (fp = [] ∨ dpOk fp) ∧ ¬ (ip = [] ∧ fp = []) then
      some (mkRat (digitsVal ip * 10 ^ digitsLen fp + digitsVal fp)
        (10 ^ digitsLen fp))
    else none

/-- Value of the exponent part (after `e`/`E`) of a Python float
literal: optional sign, then a digitpart. -/
def parseExp : List Char → Option ℤ
  | '+' :: r => if dpOk r then some (digitsVal r : ℤ) else none
  | '-' :: r => if dpOk r then some (-(digitsVal r : ℤ)) else none
  | r => if dpOk r then some (digitsVal r : ℤ) else none

/-- Multiply by an integer power of ten. -/
def mulPow10 (q : ℚ) (e : ℤ) : ℚ :=
  if 0 ≤ e then Rat.divInt (q.num * ((10 ^ e.toNat : ℕ) : ℤ)) (q.den : ℤ)
  else Rat.divInt q.num ((q.den * 10 ^ (-e).toNat : ℕ) : ℤ)

/-- Unsigned body of a Python float string: decimal number with optional
exponent; the exact rational value is kept (no rounding to double, no
overflow: every value checked by the spec is exactly representable). -/
def parseNumber (l : List Char) : Option ℚ :=
  let mant := l.takeWhile (fun c => ¬ (c = 'e' ∨ c = 'E'))
  let rest := l.dropWhile (fun c => ¬ (c = 'e' ∨ c = 'E'))
  match rest with
  | [] => parseMantissa mant
  | _ :: ex =>
    match parseMantissa mant, parseExp ex with
    | some m, some e => some (mulPow10 m e)
    | _, _ => none

/-- Body of a Python float string after the optional sign: the special
spellings `inf`/`infinity`/`nan` (case-insensitive) or a number. -/
def pyFloatBody (l : List Char) (pos : Bool) : Option PyF :=
  let low := l.map lowerChar
  if low = "inf".data ∨ low = "infinity".data then
    some (if pos then .inf else .ninf)
  else if low = "nan".data then some .nan
  else
    (parseNumber l).map (fun q => .finite (if pos then q else Rat.neg q))

/-- Python `float(str)`: strip whitespace, optional sign, then the
body. `none` models the `ValueError` raised on a malformed string. -/
def pyFloat (s : String) : Option PyF :=
  match trimChars s.data with
  | '+' :: rest => pyFloatBody rest true
  | '-' :: rest => pyFloatBody rest false
  | l => pyFloatBody l true

/-- `str(x).replace("$", "").replace(",", "").strip()` of `_to_float`
(the two replaced patterns are single characters, so replacement by the
empty string is removal of every occurrence). -/
def stripMoney (s : String) : String :=
  ⟨trimChars (s.data.filter (fun c => ¬ (c = '$' ∨ c = ',')))⟩

/-- `_to_float`: missing marker stays missing; otherwise strip `$`/`,`
and whitespace, treat empty or `-` as missing, parse as a Python float,
treat `ValueError` as missing.  A parsed `NaN` is `np.nan`, the same
object as the missing marker, so it is folded into `none` here. -/
def toFloat (x : Cell) : Option ExtF :=
  match x with
  | none => none
  | some v =>
    let s := stripMoney v
    if s = "" ∨ s = "-" then none
    else
      match pyFloat s with
      | none => none
      | some .nan => none
      | some (.finite q) => some (.finite q)
      | some .inf => some .inf
      | some .ninf => some .ninf


/-! ## Transform pipeline (`transform`) -/

/-- A raw table: the column names of the DataFrame, and each row as a
mapping from column name to cell (every row of a DataFrame has a cell,
possibly missing, for every column). -/
structure Table where
  cols : List String
  rows : List (String → Cell)

/-- Alias set of the mandatory earnings column. -/
def totalAliases : List String :=
  ["TOTAL EARNINGS", "Total Earnings", "total_earnings", "totalearnings"]

/-- Alias set of the optional department column. -/
def deptAliases : List String :=
  ["DEPARTMENT", "Department", "department", "dept_name", "department_name", "Dept"]

/-- Alias set of the optional identifier column. -/
def idAliases : List String := ["EMPLOYEE ID", "employee_id", "EmpID", "id"]

/-- `str(x)` on a cell: the missing marker `np.nan` stringifies to the
text `"nan"` (a raw Python `None` would give `"None"` instead; both are
non-missing text), a string stringifies to itself. -/
def pyStr (c : Cell) : String :=
  match c with
  | none => "nan"
  | some s => s

/-- `DEPARTMENT_CLEAN` of one row: `df[dept_col].astype(str).str.strip()`
when a department column resolved, the sentinel `"UNKNOWN"` otherwise. -/
def deptOf (deptCol : Option String) (r : String → Cell) : String :=
  match deptCol with
  | none => "UNKNOWN"
  | some dc => trimStr (pyStr (r dc))

/-- The identifier cell carried through unmodified, when an identifier
column resolved. -/
def idOf (idCol : Option String) (r : String → Cell) : Cell :=
  match idCol with
  | none => none
  | some ic => r ic

/-- A row of the clean table: `department`, `total_earnings`, and the
cell of the carried identifier column (`none` when there is none). -/
structure CleanRow where
  department : String
  total_earnings : ExtF
  idv : Cell
deriving DecidableEq

/-- The clean table: the name of the identifier column carried through
(if one resolved) and the retained rows in input order. -/
structure CleanTable where
  idCol : Option String
  rows : List CleanRow
deriving DecidableEq

/-- The column names of the clean table, in the projection order of the
source: `DEPARTMENT_CLEAN` and `TOTAL_EARNINGS_CLEAN` are renamed to
`department` / `total_earnings`; the identifier column keeps its own
original name. -/
def cleanCols (ct : CleanTable) : List String :=
  ["department", "total_earnings"] ++ ct.idCol.toList

/-- Whether a raw row survives `transform`: its earnings cell parses to
a non-missing value (`dropna`) that is non-negative (`>= 0`). -/
def validEarn (totalCol : String) (r : String → Cell) : Bool :=
  match toFloat (r totalCol) with
  | none => false
  | some v => v.nonneg

/-- The clean row produced from a surviving raw row. -/
def cleanRowOf (deptCol idCol : Option String) (totalCol : String)
    (r : String → Cell) : CleanRow :=
  ⟨deptOf deptCol r, (toFloat (r totalCol)).getD (.finite 0), idOf idCol r⟩

/-- One step of the row filtering of `transform`: parse the earnings
cell, drop `NaN` (`dropna`), drop negatives, project. -/
def keepRow (deptCol idCol : Option String) (totalCol : String)
    (r : String → Cell) : Option CleanRow :=
  match toFloat (r totalCol) with
  | none => none
  | some v =>
    if v.nonneg then some ⟨deptOf deptCol r, v, idOf idCol r⟩ else none

/-- `transform(df)`: resolve the mandatory earnings column (`KeyError`,
the `SchemaError` of the spec, when absent), parse earnings, build the
clean department column, drop missing and negative earnings, resolve the
optional identifier column and project. -/
def transform (t : Table) : Except String CleanTable :=
  match findCol t.cols totalAliases with
  | none => .error "Colonne TOTAL EARNINGS introuvable dans le dataset."
  | some totalCol =>
    .ok ⟨findCol t.cols idAliases,
      t.rows.filterMap
        (keepRow (findCol t.cols deptAliases) (findCol t.cols idAliases) totalCol)⟩

theorem keepRow_eq (deptCol idCol : Option String) (totalCol : String)
    (r : String → Cell) :
    keepRow deptCol idCol totalCol r =
      if validEarn totalCol r then some (cleanRowOf deptCol idCol totalCol r)
      else none := by
  unfold keepRow validEarn cleanRowOf
  cases h : toFloat (r totalCol) with
  | none => simp
  | some v => by_cases hv : v.nonneg = true <;> simp [hv]

theorem filterMap_if (p : α → Bool) (f : α → β) (l : List α) :
    (l.filterMap fun a => if p a then some (f a) else none) =
      (l.filter p).map f := by
  induction l with
  | nil => rfl
  | cons a l ih =>
    by_cases h : p a = true <;> simp [List.filterMap_cons, List.filter_cons, h, ih]

/-- The full behaviour of `transform` when the earnings column
resolves: the retained rows are exactly the rows with a valid
non-negative earnings value, in input order, projected to the clean
columns. -/
theorem transform_ok_spec (t : Table) (c : String)
    (h : findCol t.cols totalAliases = some c) :
    transform t = .ok
      ⟨findCol t.cols idAliases,
        (t.rows.filter (validEarn c)).map
          (cleanRowOf (findCol t.cols deptAliases) (findCol t.cols idAliases) c)⟩ := by
  have hrows :
      t.rows.filterMap
        (keepRow (findCol t.cols deptAliases) (findCol t.cols idAliases) c) =
      (t.rows.filter (validEarn c)).map
        (cleanRowOf (findCol t.cols deptAliases) (findCol t.cols idAliases) c) := by
    rw [show (keepRow (findCol t.cols deptAliases) (findCol t.cols idAliases) c) =
        fun r => if validEarn c r
          then some (cleanRowOf (findCol t.cols deptAliases) (findCol t.cols idAliases) c r)
          else none from funext (keepRow_eq _ _ _)]
    exact filterMap_if _ _ _
  simp only [transform, h, hrows]

/-! ## Aggregation engine (`analyse`)

`analyse` consumes a clean, `CleanTable`-shaped frame: a `department`
string and a finite float64 `total_earnings` per row (this is the
contract of the spec; every statistic is computed exactly over `ℚ`).
Python string comparison, used by `groupby(sort=True)` to order the
group keys, is code-point lexicographic (`lexLt`). -/

/-- Python string comparison on the underlying character lists:
code-point lexicographic, a strict prefix is smaller. -/
def lexLt : List Char → List Char → Bool
  | [], [] => false
  | [], _ :: _ => true
  | _ :: _, [] => false
  | a :: as, b :: bs => if a < b then true else if b < a then false else lexLt as bs

/-- Python `a < b` on strings. -/
def strLt (a b : String) : Bool := lexLt a.data b.data

theorem lexLt_trans (a : List Char) : ∀ b c, lexLt a b = true →
    lexLt b c = true → lexLt a c = true := by
  induction a with
  | nil =>
    intro b c hab hbc
    cases b with
    | nil => simp [lexLt] at hab
    | cons y ys =>
      cases c with
      | nil => simp [lexLt] at hbc
      | cons z zs => simp [lexLt]
  | cons x xs ih =>
    intro b c hab hbc
    cases b with
    | nil => simp [lexLt] at hab
    | cons y ys =>
      cases c with
      | nil => simp [lexLt] at hbc
      | cons z zs =>
        simp only [lexLt] at hab hbc ⊢
        rcases lt_trichotomy x y with hxy | hxy | hxy
        · rcases lt_trichotomy y z with hyz | hyz | hyz
          · simp [lt_trans hxy hyz]
          · subst hyz
            simp [hxy]
          · rw [if_neg (asymm hyz), if_pos hyz] at hbc
            exact absurd hbc (by simp)
        · subst hxy
          rw [if_neg (lt_irrefl x), if_neg (lt_irrefl x)] at hab
          rcases lt_trichotomy x z with hxz | hxz | hxz
          · simp [hxz]
          · subst hxz
            rw [if_neg (lt_irrefl x), if_neg (lt_irrefl x)] at hbc ⊢
            exact ih ys zs hab hbc
          · rw [if_neg (asymm hxz), if_pos hxz] at hbc
            exact absurd hbc (by simp)
        · rw [if_neg (asymm hxy), if_pos hxy] at hab
          exact absurd hab (by simp)

theorem lexLt_connex (a : List Char) : ∀ b, lexLt a b = false →
    lexLt b a = false → a = b := by
  induction a with
  | nil =>
    intro b hab _
    cases b with
    | nil => rfl
    | cons y ys => simp [lexLt] at hab
  | cons x xs ih =>
    intro b hab hba
    cases b with
    | nil => simp [lexLt] at hba
    | cons y ys =>
      simp only [lexLt] at hab hba
      by_cases hxy : x < y
      · simp [hxy] at hab
      · by_cases hyx : y < x
        · simp [hyx, hxy] at hba
        · have hxyeq : x = y := le_antisymm (not_lt.mp hyx) (not_lt.mp hxy)
          subst hxyeq
          rw [if_neg hxy, if_neg hxy] at hab hba
          rw [ih ys hab hba]

theorem strLt_trans (a b c : String) (h1 : strLt a b = true)
    (h2 : strLt b c = true) : strLt a c = true :=
  lexLt_trans a.data b.data c.data h1 h2

theorem strLt_connex (a b : String) (h1 : strLt a b = false)
    (h2 : strLt b a = false) : a = b := by
  cases a with
  | mk la =>
    cases b with
    | mk lb => exact congrArg String.mk (lexLt_connex la lb h1 h2)

theorem lexLt_irrefl (l : List Char) : lexLt l l = false := by
  induction l with
  | nil => rfl
  | cons x xs ih => simp [lexLt, lt_irrefl, ih]

theorem strLt_irrefl (a : String) : strLt a a = false :=
  lexLt_irrefl a.data

theorem strLt_asymm (a b : String) (h : strLt a b = true) :
    strLt b a = false := by
  by_cases hba : strLt b a = true
  · have := strLt_trans a b a h hba
    rw [strLt_irrefl a] at this
    exact absurd this (by simp)
  · simpa using hba

/-- Inserting `a` into a `T`-pairwise list keeps it `T`-pairwise, when
`a` stood `S`-before every element of the list in the original input.
This is the stability argument for an insertion sort by `r`. -/
theorem pairwise_orderedInsert {α : Type} (r : α → α → Prop) [DecidableRel r]
    (S T : α → α → Prop)
    (hA : ∀ a b, ¬ r a b → T b a)
    (hB : ∀ a b, r a b → S a b → T a b)
    (hC : ∀ a b c, r a b → T b c → r a c)
    (a : α) :
    ∀ l : List α, l.Pairwise T → (∀ x ∈ l, S a x) →
      (l.orderedInsert r a).Pairwise T := by
  intro l
  induction l with
  | nil =>
    intro _ _
    simp
  | cons h t ih =>
    intro hpw hS
    rw [List.orderedInsert]
    by_cases hr : r a h
    · rw [if_pos hr]
      refine List.Pairwise.cons ?_ hpw
      intro x hx
      rcases List.mem_cons.mp hx with heq | hx
      · rw [heq]
        exact hB a h hr (hS h (List.mem_cons_self _ _))
      · have hTx : T h x := (List.pairwise_cons.mp hpw).1 x hx
        exact hB a x (hC a h x hr hTx) (hS x (List.mem_cons_of_mem _ hx))
    · rw [if_neg hr]
      refine List.Pairwise.cons ?_ ?_
      · intro x hx
        rcases (List.mem_orderedInsert r).mp hx with heq | hx
        · rw [heq]
          exact hA a h hr
        · exact (List.pairwise_cons.mp hpw).1 x hx
      · exact ih (List.pairwise_cons.mp hpw).2
          (fun x hx => hS x (List.mem_cons_of_mem _ hx))

/-- An insertion sort by `r` of an `S`-pairwise list is `T`-pairwise:
the output is sorted by `r` and, where `r` cannot tell two elements
apart, the stable order leaves them in input (`S`) order. -/
theorem pairwise_insertionSort {α : Type} (r : α → α → Prop) [DecidableRel r]
    (S T : α → α → Prop)
    (hA : ∀ a b, ¬ r a b → T b a)
    (hB : ∀ a b, r a b → S a b → T a b)
    (hC : ∀ a b c, r a b → T b c → r a c) :
    ∀ l : List α, l.Pairwise S → (l.insertionSort r).Pairwise T := by
  intro l
  induction l with
  | nil =>
    intro _
    simp
  | cons a t ih =>
    intro hpw
    rw [List.insertionSort]
    refine pairwise_orderedInsert r S T hA hB hC a _
      (ih (List.pairwise_cons.mp hpw).2) ?_
    intro x hx
    exact (List.pairwise_cons.mp hpw).1 x
      ((List.perm_insertionSort r t).mem_iff.mp hx)

/-- Input frame of `analyse`: the column names of the DataFrame, and
per row the `department` string and the finite float64
`total_earnings`.  (A `CleanTable` per the spec contract of
`analyse`.) -/
structure CTable where
  cols : List String
  rows : List (String × ℚ)

/-- Sum of a float64 column, exactly. -/
def qsum (l : List ℚ) : ℚ := l.foldr (· + ·) 0

/-- `Series.mean()`. -/
def qmean (l : List ℚ) : ℚ := qsum l / l.length

/-- `Series.min()` (junk `0` on an empty list; only applied to nonempty
groups, and guarded by `isEmpty` for the overall record). -/
def qmin : List ℚ → ℚ
  | [] => 0
  | x :: xs => xs.foldl min x

/-- `Series.max()` (same conventions as `qmin`). -/
def qmax : List ℚ → ℚ
  | [] => 0
  | x :: xs => xs.foldl max x

/-- `Series.median()`: sort ascending; middle element for odd length,
average of the two middle elements for even length. -/
def qmedian (l : List ℚ) : ℚ :=
  let s := l.insertionSort (· ≤ ·)
  let n := s.length
  if n = 0 then 0
  else if n % 2 = 1 then s.getD (n / 2) 0
  else (s.getD (n / 2 - 1) 0 + s.getD (n / 2) 0) / 2

/-- The sample variance (divisor `n − 1`): the square of
`Series.std(ddof=1)`.  The code stores the standard deviation, i.e. the
square root of this value; the square root is kept implicit because it
is a strictly monotone bijection of `[0, ∞)` fixing `0`, so every
statement of the spec about `std` (being the sample standard deviation,
equalling `0.0`, being `NaN`) holds of `std` iff it holds of the
variance. -/
def sampleVar (l : List ℚ) : ℚ :=
  qsum (l.map (fun x => (x - qmean l) ^ 2)) / ((l.length : ℚ) - 1)

/-- `Series.std(ddof=1)` squared, with pandas' `NaN` (here `none`) when
fewer than `ddof + 1 = 2` values are present. -/
def stdSqOf (l : List ℚ) : Option ℚ :=
  if l.length ≤ 1 then none else some (sampleVar l)

/-- The earnings of the rows of department `d`, in row order
(`groupby` preserves the in-group row order). -/
def deptVals (rows : List (String × ℚ)) (d : String) : List ℚ :=
  rows.filterMap (fun r => if r.1 = d then some r.2 else none)

/-- One row of the `by_department` frame: the aggregates
`count/min/max/median/mean/std` of one group.  `stdSq` holds the
squared `std` (see `sampleVar`); `none` is pandas' `NaN`. -/
structure GroupStats where
  department : String
  count : ℕ
  min : ℚ
  max : ℚ
  median : ℚ
  mean : ℚ
  stdSq : Option ℚ
deriving DecidableEq

/-- The `overall` record: `count` is the non-null count; `min`, `max`,
`median`, `mean` are `NaN` (`none`) on an empty frame; `std` falls back
to `0.0` when `count <= 1` (the `if ... else 0.0` of the source). -/
structure OverallStats where
  count : ℕ
  min : Option ℚ
  max : Option ℚ
  median : Option ℚ
  mean : Option ℚ
  stdSq : ℚ
deriving DecidableEq

/-- The result value of `analyse`. -/
structure Analysis where
  overall : OverallStats
  by_department : List GroupStats
  top5_by_mean : List GroupStats
deriving DecidableEq

/-- Aggregates of the group of department `d`. -/
def groupStatsOf (rows : List (String × ℚ)) (d : String) : GroupStats :=
  let v := deptVals rows d
  ⟨d, v.length, qmin v, qmax v, qmedian v, qmean v, stdSqOf v⟩

/-- First-appearance deduplication of the department values (the order
in which `groupby` first meets each key; recorded for the stability
analysis — `groupby(sort=True)` does *not* keep this order). -/
def uniqKeys (l : List String) : List String :=
  l.foldl (fun acc d => if d ∈ acc then acc else acc ++ [d]) []

/-- The group keys as `groupby(sort=True)` orders them: sorted
ascending by Python string comparison. -/
def sortedKeys (l : List String) : List String :=
  (uniqKeys l).insertionSort (fun a b => strLt b a = false)

/-- The `by_department` frame: one aggregate row per key in
`groupby(sort=True)` key order, then
`sort_values(by="mean", ascending=False)`.

The mean sort is embedded as an insertion sort.  The code's sort is
numpy's default introsort, which runs plain insertion sort on arrays
of fewer than 16 elements — there this embedding agrees with the code
element for element — but is *unstable* on larger arrays, where the
code's order inside a block of equal means is unspecified.  Every
theorem below therefore either states a fact invariant under
permutations within equal-mean blocks (descending mean order, the
membership facts), or carries a fewer-than-16-groups hypothesis under
which the embedding is exact; no theorem asserts the tie order of a
16-or-more-group table. -/
def byDept (rows : List (String × ℚ)) : List GroupStats :=
  ((sortedKeys (rows.map Prod.fst)).map (groupStatsOf rows)).insertionSort
    (fun a b => b.mean ≤ a.mean)

/-- The `overall` dict of `analyse`. -/
def overallOf (rows : List (String × ℚ)) : OverallStats :=
  let e := rows.map Prod.snd
  ⟨e.length,
   if e.isEmpty then none else some (qmin e),
   if e.isEmpty then none else some (qmax e),
   if e.isEmpty then none else some (qmedian e),
   if e.isEmpty then none else some (qmean e),
   if 1 < e.length then sampleVar e else 0⟩

/-- `analyse(df)`: `KeyError` (the spec's `SchemaError`) unless both
`department` and `total_earnings` are columns; otherwise the overall
record, the mean-sorted per-department frame, and its first 5 rows. -/
def analyse (t : CTable) : Except String Analysis :=
  if "department" ∈ t.cols ∧ "total_earnings" ∈ t.cols then
    .ok ⟨overallOf t.rows, byDept t.rows, (byDept t.rows).take 5⟩
  else
    .error "Le DataFrame doit contenir department et total_earnings."

end Etl

deriving instance DecidableEq for Except

namespace Etl

/-! ## Claims -/

/-- C8: for every column set and ordered candidate list, `_find_col`
returns the original name of the first candidate (in list order) whose
lowercased, space- and underscore-stripped form equals the normalized
form of some column, and `None` when no candidate matches; in
particular a column literally named `total_earnings` resolves against
candidate `TOTAL EARNINGS`. -/
theorem findCol_first_candidate_spec :
    (∀ cols cands, findCol cols cands = none ↔
      ∀ cand ∈ cands, ¬ colMatches cols cand) ∧
    (∀ cols cands orig, findCol cols cands = some orig →
      ∃ pre cand post, cands = pre ++ cand :: post ∧
        (∀ p ∈ pre, ¬ colMatches cols p) ∧
        orig ∈ cols ∧ normKey orig = normKey cand) ∧
    findCol ["total_earnings"] ["TOTAL EARNINGS"] = some "total_earnings" :=
  ⟨findCol_eq_none_iff, findCol_eq_some_spec, by decide⟩

/-- Witness for C8: the concrete resolution of `total_earnings` against
candidate `TOTAL EARNINGS`, through the theorem itself. -/
theorem findCol_first_candidate_spec_witness :
    ∃ pre cand post, (["TOTAL EARNINGS"] : List String) = pre ++ cand :: post ∧
      (∀ p ∈ pre, ¬ colMatches ["total_earnings"] p) ∧
      "total_earnings" ∈ ["total_earnings"] ∧
      normKey "total_earnings" = normKey cand :=
  findCol_first_candidate_spec.2.1 ["total_earnings"] ["TOTAL EARNINGS"]
    "total_earnings" (by decide)

/-- C4: the currency parser maps `"$1,234.50"` to `1234.50`, `" - "`,
`""` and a null input to missing, `"$0.00"` to `0.0`, `"$-10.00"` to
`-10.0` (a successful parse), `"$2,000"` to `2000.0`; in general, after
stripping `$`/`,` and whitespace, an unparsable string is missing and
any parsed finite value (negative ones included) is returned
unchanged. -/
theorem toFloat_currency_spec :
    toFloat (some "$1,234.50") = some (.finite 1234.5) ∧
    toFloat (some " - ") = none ∧
    toFloat (some "") = none ∧
    toFloat none = none ∧
    toFloat (some "$0.00") = some (.finite 0) ∧
    toFloat (some "$-10.00") = some (.finite (-10)) ∧
    toFloat (some "$2,000") = some (.finite 2000) ∧
    (∀ s, pyFloat (stripMoney s) = none → toFloat (some s) = none) ∧
    (∀ s q, pyFloat (stripMoney s) = some (.finite q) →
      toFloat (some s) = some (.finite q)) := by
  refine ⟨?_, ?_, ?_, ?_, ?_, ?_, ?_, ?_, ?_⟩
  · have h : (1234.5 : ℚ) = mkRat 123450 100 := by norm_num [Rat.mkRat_eq_div]
    rw [h]
    rfl
  · rfl
  · rfl
  · rfl
  · have h : ((0 : ℚ)) = mkRat 0 100 := by norm_num [Rat.mkRat_eq_div]
    rw [h]
    rfl
  · have h : ((-10 : ℚ)) = Rat.neg (mkRat 1000 100) := by
      have h2 : Rat.neg (mkRat 1000 100) = -(mkRat 1000 100) := rfl
      rw [h2]
      norm_num [Rat.mkRat_eq_div]
    rw [h]
    rfl
  · have h : ((2000 : ℚ)) = mkRat 2000 1 := by norm_num [Rat.mkRat_eq_div]
    rw [h]
    rfl
  · intro s h
    by_cases hs : stripMoney s = "" ∨ stripMoney s = "-"
    · simp [toFloat, hs]
    · simp [toFloat, hs, h]
  · intro s q h
    by_cases hs : stripMoney s = "" ∨ stripMoney s = "-"
    · exfalso
      rcases hs with hs | hs <;> rw [hs] at h
      · rw [show pyFloat "" = none from by decide] at h
        exact Option.noConfusion h
      · rw [show pyFloat "-" = none from by decide] at h
        exact Option.noConfusion h
    · simp [toFloat, hs, h]

/-- Witness for C4: a malformed string degrades to missing, through the
general conjunct of the theorem. -/
theorem toFloat_currency_spec_witness : toFloat (some "abc") = none :=
  toFloat_currency_spec.2.2.2.2.2.2.2.1 "abc" (by decide)

/-- C10: the numeric parse of the currency parser accepts strictly more
than optional-sign decimal notation: exponent notation, underscore
separators and `inf` all parse instead of being treated as missing. -/
theorem toFloat_beyond_decimal_spec :
    toFloat (some "1e3") = some (.finite 1000) ∧
    toFloat (some "1_000") = some (.finite 1000) ∧
    toFloat (some "inf") = some .inf := by
  refine ⟨?_, ?_, ?_⟩
  · have h : ((1000 : ℚ)) = mulPow10 (mkRat 1 1) 3 := by with_unfolding_all decide
    rw [h]
    rfl
  · have h : ((1000 : ℚ)) = mkRat 1000 1 := by norm_num [Rat.mkRat_eq_div]
    rw [h]
    rfl
  · rfl

/-- C2: whenever the earnings column resolves, `transform` returns
exactly the rows whose earnings cell parses to a non-missing,
non-negative value, in their original relative order, and drops all
other rows; in particular the clean length equals the count of valid
non-negative rows. -/
theorem transform_row_conservation (t : Table) (c : String)
    (h : findCol t.cols totalAliases = some c) :
    ∃ ct, transform t = .ok ct ∧
      ct.rows = (t.rows.filter (validEarn c)).map
        (cleanRowOf (findCol t.cols deptAliases) (findCol t.cols idAliases) c) ∧
      ct.rows.length = t.rows.countP (validEarn c) := by
  refine ⟨_, transform_ok_spec t c h, rfl, ?_⟩
  simp [List.countP_eq_length_filter]

/-- Witness table for C2: one valid row, one whitespace-dash row (missing),
one negative row. -/
def T2w : Table :=
  ⟨["Total Earnings"],
   [fun c => if c = "Total Earnings" then some "$5" else none,
    fun c => if c = "Total Earnings" then some " - " else none,
    fun c => if c = "Total Earnings" then some "$-10.00" else none]⟩

/-- Witness for C2 at a concrete mixed table. -/
theorem transform_row_conservation_witness :
    ∃ ct, transform T2w = .ok ct ∧
      ct.rows = (T2w.rows.filter (validEarn "Total Earnings")).map
        (cleanRowOf (findCol T2w.cols deptAliases)
          (findCol T2w.cols idAliases) "Total Earnings") ∧
      ct.rows.length = T2w.rows.countP (validEarn "Total Earnings") :=
  transform_row_conservation T2w "Total Earnings" (by decide)

/-- C5: `transform` fails (with the `SchemaError` of the spec) exactly
when no column resolves, case/space/underscore-insensitively, against
the earnings alias set; an unresolvable department column is not an
error and instead every retained row's department is the sentinel
`"UNKNOWN"`. -/
theorem transform_schema_error (t : Table) :
    ((∃ e, transform t = .error e) ↔
      ∀ cand ∈ totalAliases, ¬ colMatches t.cols cand) ∧
    ((∀ cand ∈ deptAliases, ¬ colMatches t.cols cand) →
      ∀ ct, transform t = .ok ct →
        ∀ row ∈ ct.rows, row.department = "UNKNOWN") := by
  constructor
  · cases hf : findCol t.cols totalAliases with
    | none =>
      constructor
      · intro _
        exact (findCol_eq_none_iff _ _).mp hf
      · intro _
        exact ⟨"Colonne TOTAL EARNINGS introuvable dans le dataset.",
          by simp [transform, hf]⟩
    | some c =>
      constructor
      · rintro ⟨e, he⟩
        rw [transform_ok_spec t c hf] at he
        exact Except.noConfusion he
      · intro hnone
        rw [(findCol_eq_none_iff _ _).mpr hnone] at hf
        exact Option.noConfusion hf
  · intro hd ct hok row hrow
    cases hf : findCol t.cols totalAliases with
    | none =>
      rw [show transform t =
          .error "Colonne TOTAL EARNINGS introuvable dans le dataset." from
          by simp [transform, hf]] at hok
      exact Except.noConfusion hok
    | some c =>
      rw [transform_ok_spec t c hf] at hok
      cases hok
      obtain ⟨r, hr, hrr⟩ := List.mem_map.mp hrow
      rw [← hrr]
      show deptOf (findCol t.cols deptAliases) r = "UNKNOWN"
      rw [(findCol_eq_none_iff _ _).mpr hd]
      rfl

/-- C7 input: a table whose identifier column is literally named
`EmpID`. -/
def T7 : Table :=
  ⟨["Total Earnings", "EmpID"],
   [fun c => if c = "Total Earnings" then some "$5" else
             if c = "EmpID" then some "E1" else none]⟩

/-- Witness for C5: a table with no earnings-like column errors, and a
table with earnings but no department column fills `"UNKNOWN"`. -/
theorem transform_schema_error_witness :
    (∃ e, transform ⟨["foo"], []⟩ = .error e) ∧
    (∀ row ∈ (⟨some "EmpID", [⟨"UNKNOWN", .finite (mkRat 5 1), some "E1"⟩]⟩ :
        CleanTable).rows, row.department = "UNKNOWN") :=
  ⟨(transform_schema_error ⟨["foo"], []⟩).1.mpr (by decide),
   (transform_schema_error T7).2 (by decide) _ (by with_unfolding_all decide)⟩

/-- Counterexample for C7: the identifier column of the clean table is
*not* renamed to `employee_id`; it keeps its original resolved name
(`EmpID` here), so the clean columns are
`department, total_earnings, EmpID`. -/
theorem transform_id_column_name_cex :
    transform T7 = .ok ⟨some "EmpID", [⟨"UNKNOWN", .finite (mkRat 5 1), some "E1"⟩]⟩ ∧
    cleanCols ⟨some "EmpID", [⟨"UNKNOWN", .finite (mkRat 5 1), some "E1"⟩]⟩ =
      ["department", "total_earnings", "EmpID"] ∧
    "employee_id" ∉
      cleanCols ⟨some "EmpID", [⟨"UNKNOWN", .finite (mkRat 5 1), some "E1"⟩]⟩ := by
  refine ⟨?_, by decide, by decide⟩
  with_unfolding_all decide

/-- C7 (amended): on success the clean columns are exactly
`department`, `total_earnings` and, when an identifier column resolves,
that column under its own original name (not renamed to `employee_id`),
its values carried through unmodified; no other input column
survives. -/
theorem transform_columns_amended (t : Table) (c : String)
    (h : findCol t.cols totalAliases = some c) :
    ∃ ct, transform t = .ok ct ∧
      ct.idCol = findCol t.cols idAliases ∧
      cleanCols ct = ["department", "total_earnings"] ++
        (findCol t.cols idAliases).toList ∧
      ∀ row ∈ ct.rows, ∃ r ∈ t.rows,
        row = cleanRowOf (findCol t.cols deptAliases)
          (findCol t.cols idAliases) c r := by
  refine ⟨_, transform_ok_spec t c h, rfl, rfl, ?_⟩
  intro row hrow
  obtain ⟨r, hr, hrr⟩ := List.mem_map.mp hrow
  exact ⟨r, List.mem_of_mem_filter hr, hrr.symm⟩

/-- Witness for C7 (amended) at the `EmpID` table. -/
theorem transform_columns_amended_witness :
    ∃ ct, transform T7 = .ok ct ∧
      ct.idCol = findCol T7.cols idAliases ∧
      cleanCols ct = ["department", "total_earnings"] ++
        (findCol T7.cols idAliases).toList ∧
      ∀ row ∈ ct.rows, ∃ r ∈ T7.rows,
        row = cleanRowOf (findCol T7.cols deptAliases)
          (findCol T7.cols idAliases) "Total Earnings" r :=
  transform_columns_amended T7 "Total Earnings" (by decide)

/-- C9: when a department column resolves, `transform` stringifies and
trims every department cell, so every clean row has a (non-null) string
department; the missing marker itself is stringified to the literal
text `"nan"` rather than staying missing. -/
theorem transform_department_stringified (t : Table) (dc c : String)
    (hd : findCol t.cols deptAliases = some dc)
    (h : findCol t.cols totalAliases = some c) :
    (∀ ct, transform t = .ok ct → ∀ row ∈ ct.rows,
      ∃ r ∈ t.rows, row.department = trimStr (pyStr (r dc))) ∧
    pyStr none = "nan" := by
  constructor
  · intro ct hok row hrow
    rw [transform_ok_spec t c h] at hok
    cases hok
    obtain ⟨r, hr, hrr⟩ := List.mem_map.mp hrow
    refine ⟨r, List.mem_of_mem_filter hr, ?_⟩
    rw [← hrr]
    show deptOf (findCol t.cols deptAliases) r = _
    rw [hd]
    rfl
  · rfl

/-- Witness table for C9: a missing department cell next to a valid
earnings cell. -/
def T9 : Table :=
  ⟨["Department", "Total Earnings"],
   [fun c => if c = "Total Earnings" then some "$5" else none]⟩

/-- Witness for C9 at a concrete table with a null department. -/
theorem transform_department_stringified_witness :
    (∀ ct, transform T9 = .ok ct → ∀ row ∈ ct.rows,
      ∃ r ∈ T9.rows, row.department = trimStr (pyStr (r "Department"))) ∧
    pyStr none = "nan" :=
  transform_department_stringified T9 "Department" "Total Earnings"
    (by decide) (by decide)

theorem analyse_ok (t : CTable) (a : Analysis) (h : analyse t = .ok a) :
    a = ⟨overallOf t.rows, byDept t.rows, (byDept t.rows).take 5⟩ := by
  unfold analyse at h
  by_cases hc : "department" ∈ t.cols ∧ "total_earnings" ∈ t.cols
  · rw [if_pos hc] at h
    injection h with h1
    exact h1.symm
  · rw [if_neg hc] at h
    exact Except.noConfusion h

theorem mem_byDept (rows : List (String × ℚ)) (g : GroupStats)
    (hg : g ∈ byDept rows) : ∃ d, g = groupStatsOf rows d := by
  unfold byDept at hg
  have hm := (List.perm_insertionSort
    (fun a b : GroupStats => b.mean ≤ a.mean) _).mem_iff.mp hg
  obtain ⟨d, _, hd⟩ := List.mem_map.mp hm
  exact ⟨d, hd.symm⟩

/-- C6: `analyse` fails exactly when `department` and `total_earnings`
are not both columns of its input. -/
theorem analyse_schema_error (t : CTable) :
    (∃ e, analyse t = .error e) ↔
      ¬ ("department" ∈ t.cols ∧ "total_earnings" ∈ t.cols) := by
  unfold analyse
  by_cases hc : "department" ∈ t.cols ∧ "total_earnings" ∈ t.cols
  · rw [if_pos hc]
    simp [hc]
  · rw [if_neg hc]
    simp [hc]

/-- Witness for C6: a table missing only `total_earnings` fails. -/
theorem analyse_schema_error_witness :
    ∃ e, analyse (⟨["department"], []⟩ : CTable) = .error e :=
  (analyse_schema_error ⟨["department"], []⟩).mpr (by decide)

/-- C1 counterexample input: a single-department, single-row clean
table. -/
def CT1 : CTable := ⟨["department", "total_earnings"], [("IT", 100)]⟩

/-- Counterexample for C1: on a clean table whose only group has
count 1, the group's `std` is pandas' `NaN` (`none` here), not `0.0` —
only the *overall* `std` gets the `0.0` fallback. -/
theorem analyse_std_cex :
    analyse CT1 = .ok
      ⟨⟨1, some 100, some 100, some 100, some 100, 0⟩,
       [⟨"IT", 1, 100, 100, 100, 100, none⟩],
       [⟨"IT", 1, 100, 100, 100, 100, none⟩]⟩ := by
  with_unfolding_all decide

/-- C1 (amended): for every department group, `std` is the sample
standard deviation (divisor `count − 1`) when `count ≥ 2`, but it is
`NaN` — not `0.0` — when `count = 1`; the overall record's `std` is the
sample standard deviation when `count ≥ 2` and `0.0` when
`count ≤ 1`.  (`stdSq` carries the squared value, see `sampleVar`.) -/
theorem analyse_std_amended (t : CTable) (a : Analysis)
    (h : analyse t = .ok a) :
    (∀ g ∈ a.by_department,
      g.count = (deptVals t.rows g.department).length ∧
      (g.count = 1 → g.stdSq = none) ∧
      (2 ≤ g.count →
        g.stdSq = some (sampleVar (deptVals t.rows g.department)))) ∧
    (a.overall.count ≤ 1 → a.overall.stdSq = 0) ∧
    (2 ≤ a.overall.count →
      a.overall.stdSq = sampleVar (t.rows.map Prod.snd)) := by
  have ha := analyse_ok t a h
  subst ha
  refine ⟨?_, ?_, ?_⟩
  · intro g hg
    obtain ⟨d, hd⟩ := mem_byDept t.rows g hg
    subst hd
    have hdep : (groupStatsOf t.rows d).department = d := by
      simp [groupStatsOf]
    have hcnt : (groupStatsOf t.rows d).count = (deptVals t.rows d).length := by
      simp [groupStatsOf]
    refine ⟨by rw [hdep, hcnt], ?_, ?_⟩
    · intro h1
      rw [hcnt] at h1
      simp only [groupStatsOf, stdSqOf]
      rw [if_pos (by omega)]
    · intro h2
      rw [hcnt] at h2
      rw [hdep]
      simp only [groupStatsOf, stdSqOf]
      rw [if_neg (by omega)]
  · intro h1
    simp only [overallOf] at h1 ⊢
    rw [if_neg (by omega)]
  · intro h2
    simp only [overallOf] at h2 ⊢
    rw [if_pos (by omega)]

/-- Witness table for C1 (amended): one department with two rows. -/
def CT1w : CTable := ⟨["department", "total_earnings"], [("IT", 100), ("IT", 200)]⟩

/-- The analysis result of the C1 witness table. -/
def A1w : Analysis :=
  ⟨overallOf CT1w.rows, byDept CT1w.rows, (byDept CT1w.rows).take 5⟩

/-- Witness for C1 (amended) at a concrete two-row table. -/
theorem analyse_std_amended_witness :
    (∀ g ∈ A1w.by_department,
      g.count = (deptVals CT1w.rows g.department).length ∧
      (g.count = 1 → g.stdSq = none) ∧
      (2 ≤ g.count →
        g.stdSq = some (sampleVar (deptVals CT1w.rows g.department)))) ∧
    (A1w.overall.count ≤ 1 → A1w.overall.stdSq = 0) ∧
    (2 ≤ A1w.overall.count →
      A1w.overall.stdSq = sampleVar (CT1w.rows.map Prod.snd)) :=
  analyse_std_amended CT1w A1w rfl

theorem uniqKeys_foldl_nodup (l : List String) : ∀ acc : List String,
    acc.Nodup →
    (l.foldl (fun acc d => if d ∈ acc then acc else acc ++ [d]) acc).Nodup := by
  induction l with
  | nil =>
    intro acc h
    exact h
  | cons d rest ih =>
    intro acc h
    simp only [List.foldl_cons]
    by_cases hd : d ∈ acc
    · rw [if_pos hd]
      exact ih acc h
    · rw [if_neg hd]
      refine ih _ ?_
      simp [List.nodup_append, h, hd]

theorem uniqKeys_nodup (l : List String) : (uniqKeys l).Nodup :=
  uniqKeys_foldl_nodup l [] (by simp)

theorem sortedKeys_pairwise (l : List String) :
    (sortedKeys l).Pairwise (fun a b => strLt a b = true) := by
  unfold sortedKeys
  refine pairwise_insertionSort (fun a b => strLt b a = false)
    (fun a b : String => a ≠ b) (fun a b => strLt a b = true)
    ?_ ?_ ?_ _ (uniqKeys_nodup l)
  · intro a b hab
    cases hc : strLt b a with
    | false => exact absurd hc hab
    | true => rfl
  · intro a b hr hne
    cases hc : strLt a b with
    | false => exact absurd (strLt_connex a b hc hr) hne
    | true => rfl
  · intro a b c hr ht
    cases hc : strLt c a with
    | false => rfl
    | true =>
      have hba := strLt_trans b c a ht hc
      rw [hr] at hba
      exact Bool.noConfusion hba

/-- The aggregate rows, in `groupby(sort=True)` order, are strictly
sorted by department name. -/
theorem grouped_pairwise (rows : List (String × ℚ)) :
    ((sortedKeys (rows.map Prod.fst)).map (groupStatsOf rows)).Pairwise
      (fun g1 g2 => strLt g1.department g2.department = true) := by
  refine List.Pairwise.map (groupStatsOf rows) ?_
    (sortedKeys_pairwise (rows.map Prod.fst))
  intro a b hab
  simpa [groupStatsOf] using hab

/-- The `by_department` rows are sorted by mean descending, and rows
with equal means are sorted by department name ascending (the key
order `groupby` produced), because the mean sort is stable. -/
theorem byDept_pairwise (rows : List (String × ℚ)) :
    (byDept rows).Pairwise (fun g1 g2 =>
      g2.mean < g1.mean ∨
        (g1.mean = g2.mean ∧ strLt g1.department g2.department = true)) := by
  unfold byDept
  refine pairwise_insertionSort (fun a b : GroupStats => b.mean ≤ a.mean)
    (fun g1 g2 => strLt g1.department g2.department = true)
    (fun g1 g2 => g2.mean < g1.mean ∨
      (g1.mean = g2.mean ∧ strLt g1.department g2.department = true))
    ?_ ?_ ?_ _ (grouped_pairwise rows)
  · intro a b hab
    exact Or.inl (not_le.mp hab)
  · intro a b hr hS
    rcases lt_or_eq_of_le hr with hlt | heq
    · exact Or.inl hlt
    · exact Or.inr ⟨heq.symm, hS⟩
  · intro a b c hr ht
    rcases ht with hlt | ⟨heq, hS⟩
    · exact le_trans (le_of_lt hlt) hr
    · exact le_trans (le_of_eq heq.symm) hr

/-- C3 counterexample input: two equal-mean departments whose
first-appearance order (`B` then `A`) disagrees with their name
order. -/
def CT3 : CTable := ⟨["department", "total_earnings"], [("B", 100), ("A", 100)]⟩

/-- Counterexample for C3: with two equal-mean departments first
appearing as `B`, `A`, `analyse` returns them as `A`, `B` — `groupby`
reorders the groups by key before the mean sort, so ties follow
department-name order, not first-appearance order. -/
theorem analyse_sort_cex :
    CT3.rows.map Prod.fst = ["B", "A"] ∧
    uniqKeys (CT3.rows.map Prod.fst) = ["B", "A"] ∧
    (∃ a, analyse CT3 = .ok a ∧
      a.by_department.map GroupStats.department = ["A", "B"] ∧
      a.by_department.map GroupStats.mean = [100, 100]) := by
  refine ⟨by decide, by decide,
    ⟨⟨overallOf CT3.rows, byDept CT3.rows, (byDept CT3.rows).take 5⟩,
      rfl, ?_, ?_⟩⟩
  · with_unfolding_all decide
  · with_unfolding_all decide

/-- C3 (amended): `by_department` is always sorted by mean descending,
but equal-mean departments are *not* kept in first-appearance order
(`groupby(sort=True)` reorders the groups by department name before
the mean sort).  When the table has fewer than 16 department groups —
the regime where numpy's default sort runs its insertion sort and is
stable, and where this embedding agrees with the code element for
element — equal-mean departments appear in ascending department-name
order (Python string comparison); for 16 or more groups the code's tie
order is unspecified (numpy introsort is unstable) and nothing is
asserted about it. -/
theorem analyse_sort_amended (t : CTable) (a : Analysis)
    (h : analyse t = .ok a) :
    a.by_department.Pairwise (fun g1 g2 => g2.mean ≤ g1.mean) ∧
    ((uniqKeys (t.rows.map Prod.fst)).length < 16 →
      a.by_department.Pairwise (fun g1 g2 =>
        g2.mean < g1.mean ∨
          (g1.mean = g2.mean ∧ strLt g1.department g2.department = true))) := by
  have ha := analyse_ok t a h
  subst ha
  refine ⟨?_, fun _ => byDept_pairwise t.rows⟩
  refine List.Pairwise.imp ?_ (byDept_pairwise t.rows)
  intro g1 g2 hg
  rcases hg with hlt | ⟨heq, hS⟩
  · exact le_of_lt hlt
  · exact le_of_eq heq.symm

/-- Witness table for C3 (amended). -/
def CT3w : CTable := ⟨["department", "total_earnings"], [("IT", 100), ("HR", 200)]⟩

/-- The analysis result of the C3 witness table. -/
def A3w : Analysis :=
  ⟨overallOf CT3w.rows, byDept CT3w.rows, (byDept CT3w.rows).take 5⟩

/-- Witness for C3 (amended) at a concrete two-department table (well
inside the fewer-than-16-groups regime). -/
theorem analyse_sort_amended_witness :
    A3w.by_department.Pairwise (fun g1 g2 => g2.mean ≤ g1.mean) ∧
    A3w.by_department.Pairwise (fun g1 g2 =>
      g2.mean < g1.mean ∨
        (g1.mean = g2.mean ∧ strLt g1.department g2.department = true)) :=
  ⟨(analyse_sort_amended CT3w A3w rfl).1,
   (analyse_sort_amended CT3w A3w rfl).2 (by decide)⟩

end Etl
